import Mathlib

/-!
# Combobox interaction state machine — shallow embedding

This development embeds the combobox interaction core of the headless UI
library: the option registry (DOM-order index resolution), the activation
controller (`nextActive` over navigation intents), typeahead search, and the
top-level state machine (open/close, selection, keyboard and mouse dispatch).

The combobox component implementation itself is not part of the source tree
(only its test suite and the popover component are); following the
specification's data model and contracts (spec §3, §4.1–§4.4, §7), the
definitions below are therefore modelled from the spec, with the repository's
test suite fixing the observable behaviour where the spec leaves latitude.
Machine values are parametrised over an arbitrary value type `V` with
decidable equality (the spec's `T`); the tests instantiate `V := String`.
-/

namespace Headless

/-- Modelled from the spec: `OptionRecord` `{ id, domRef, value, disabled }`
(spec §3), created per Option mount.  The live DOM position that the spec
resolves through `domRef` at query time is embedded as the field `domPos`;
`text` is the option's textual representation used by typeahead search. -/
structure OptionRecord (V : Type) where
  id : String
  value : V
  disabled : Bool
  text : String
  domPos : Nat
  deriving Repr, DecidableEq

/-- DOM-position order on option records. -/
def domLe {V : Type} (a b : OptionRecord V) : Prop := a.domPos ≤ b.domPos

instance {V : Type} : DecidableRel (@domLe V) := fun a b =>
  inferInstanceAs (Decidable (a.domPos ≤ b.domPos))

instance {V : Type} : IsTotal (OptionRecord V) domLe := ⟨fun _ _ => Nat.le_total _ _⟩

instance {V : Type} : IsTrans (OptionRecord V) domLe := ⟨fun _ _ _ => Nat.le_trans⟩

/-- Modelled from the spec: the registry "must resolve indices by DOM position
at query time, not registration time" (spec §3, §4.1).  `domOrdered` sorts the
registration-ordered registry by current DOM position; all index-based
queries below work over this DOM-ordered view. -/
def domOrdered {V : Type} (reg : List (OptionRecord V)) : List (OptionRecord V) :=
  List.insertionSort domLe reg

/-- Indices (offset by `i`) of the non-disabled records of a list, in order. -/
def enabledIdxsFrom {V : Type} (i : Nat) : List (OptionRecord V) → List Nat
  | [] => []
  | r :: rs => if r.disabled then enabledIdxsFrom (i + 1) rs
               else i :: enabledIdxsFrom (i + 1) rs

/-- Modelled from the spec: `orderedEnabledIndices()` — "indices of
non-disabled records in current DOM order" (spec §4.1), here taken of an
already DOM-ordered list. -/
def enabledIdxs {V : Type} (l : List (OptionRecord V)) : List Nat :=
  enabledIdxsFrom 0 l

/-- First index (offset by `n`) at which a record with the given id occurs,
together with that record; `none` when the id is not registered
("querying an unregistered id returns not found, never throws", spec §4.1). -/
def idIndexFrom {V : Type} (n : Nat) (id : String) :
    List (OptionRecord V) → Option (Nat × OptionRecord V)
  | [] => none
  | r :: rs => if r.id = id then some (n, r) else idIndexFrom (n + 1) id rs

/-- Modelled from the spec: the navigation intents of the activation
controller (spec §4.2). -/
inductive Intent where
  | first
  | last
  | next
  | previous
  | specific (id : String)
  | nothing
  deriving Repr, DecidableEq

/-- Modelled from the spec: `nextActive(current, intent, registry)`
(spec §4.2).  `l` is the DOM-ordered registry view; indices are positions in
`l`.  `First`/`Last` go to the first/last enabled index; `Next`/`Previous`
move to the first enabled index strictly after / last enabled index strictly
before `current`, staying at `current` when none exists (no wraparound), and
behave like `First`/`Last` from a `none` current; `Specific id` goes to the
index of `id` if that record is enabled, else leaves `current` unchanged
(likewise for an unregistered id); `Nothing` clears activation. -/
def nextActive {V : Type} (current : Option Nat) (intent : Intent)
    (l : List (OptionRecord V)) : Option Nat :=
  match intent with
  | .first => (enabledIdxs l).head?
  | .last => (enabledIdxs l).getLast?
  | .next =>
      match current with
      | none => (enabledIdxs l).head?
      | some c =>
          match ((enabledIdxs l).filter (fun i => decide (c < i))).head? with
          | none => some c
          | some i => some i
  | .previous =>
      match current with
      | none => (enabledIdxs l).getLast?
      | some c =>
          match ((enabledIdxs l).filter (fun i => decide (i < c))).getLast? with
          | none => some c
          | some i => some i
  | .specific id =>
      match idIndexFrom 0 id l with
      | none => current
      | some (i, r) => if r.disabled then current else some i
  | .nothing => none

/-- Modelled from the spec: consumer configuration of the state machine —
the optional `displayValue` formatter and the default "string form of
`value`" used when no formatter is provided (spec §4.4 `selectOption`,
§6 `displayValue` hook), and the "hold" flag under which mouse-leave keeps
the last active option (spec §4.4 mouse dispatch). -/
structure Config (V : Type) where
  displayValue : Option (V → String)
  stringForm : V → String
  hold : Bool

/-- Modelled from the spec: `ComboboxState` `{ open, value, activeOptionIndex,
inputText }` (spec §3) together with the registry, the ephemeral search
buffer (spec §3, §4.3) and an input-focus flag (the spec's "move focus to
the text input", §4.4).  The active option is kept by id — activation must
survive registry mutation of *other* options and is re-resolved to a
DOM-order index at query time (spec §3 "resolve indices by DOM position at
query time"; test `should maintain activeIndex and activeOption when
filtering`). -/
structure Machine (V : Type) where
  isOpen : Bool
  value : Option V
  activeId : Option String
  inputText : String
  searchBuffer : String
  registry : List (OptionRecord V)
  inputFocused : Bool

/-- The derived `activeOptionIndex` of the spec's `ComboboxState` (spec §3):
the DOM-order index of the active option's record, if any. -/
def activeIndex {V : Type} (m : Machine V) : Option Nat :=
  match m.activeId with
  | none => none
  | some id => (idIndexFrom 0 id (domOrdered m.registry)).map Prod.fst

/-- Modelled from the spec: `goTo(intent)` delegates to the activation
controller over the DOM-ordered registry (spec §4.4); the resulting index is
stored back as the id of the record at that index. -/
def goTo {V : Type} (intent : Intent) (m : Machine V) : Machine V :=
  match nextActive (activeIndex m) intent (domOrdered m.registry) with
  | none => { m with activeId := none }
  | some i => { m with activeId := ((domOrdered m.registry)[i]?).map OptionRecord.id }

/-- Modelled from the spec: the open-time activation seed — "when opening, if
the state's `value` matches exactly one enabled option, activation becomes
that option's index; otherwise null" (spec §4.2 tie-break). -/
def matchingEnabled {V : Type} [DecidableEq V] (v : V) (l : List (OptionRecord V)) :
    List (OptionRecord V) :=
  l.filter (fun r => !r.disabled && decide (r.value = v))

/-- The id activated on open: the unique enabled option matching `value`,
if there is exactly one; `none` otherwise (spec §4.2 tie-break). -/
def seedActive {V : Type} [DecidableEq V] (m : Machine V) : Option String :=
  match m.value with
  | none => none
  | some v =>
      match matchingEnabled v (domOrdered m.registry) with
      | [r] => some r.id
      | _ => none

/-- Modelled from the spec: the triggers of the `Closed → Open` transition —
"click button, Enter/Space/ArrowUp/ArrowDown on input or button" (spec §4.4). -/
inductive OpenTrigger where
  | buttonClick
  | enterKey
  | spaceKey
  | arrowDown
  | arrowUp
  deriving Repr, DecidableEq

/-- The entry action of the `Closed → Open` transition, shared by all
triggers: the machine opens, the initial active option is computed by the
§4.2 "selected option" tie-break, and focus moves to the text input
(spec §4.4). -/
def openedSeed {V : Type} [DecidableEq V] (m : Machine V) : Machine V :=
  { m with isOpen := true, activeId := seedActive m, inputFocused := true }

/-- Modelled from the spec: the `Closed → Open` transition (spec §4.4),
dispatching on the trigger.  For the ArrowUp trigger the spec additionally
prescribes "if closed before, lands on Last": when no value is bound,
activation jumps to the last enabled option (test `should be possible to
open the combobox with ArrowUp and the last option should be active`);
a bound value keeps the seeded activation (test `should be possible to open
the combobox with ArrowUp, and focus the selected option`).  Opening is
idempotent: an already-open machine is left unchanged. -/
def openWith {V : Type} [DecidableEq V] (t : OpenTrigger) (m : Machine V) : Machine V :=
  if m.isOpen then m
  else
    match t with
    | .arrowUp =>
        if m.value = none then goTo .last (openedSeed m) else openedSeed m
    | _ => openedSeed m

/-- Modelled from the spec: `closeList()` — closing clears the active index
and the search buffer and does not clear `inputText` (spec §4.4). -/
def closeList {V : Type} (m : Machine V) : Machine V :=
  { m with isOpen := false, activeId := none, searchBuffer := "" }

/-- Modelled from the spec: `selectOption(id)` — "sets `value` to the
record's value, closes the list, moves focus back to input, and — if no
custom display formatter is provided — sets `inputText` to the string form of
`value`; if a formatter is provided, `inputText` is set to `formatter(value)`"
(spec §4.4); the search buffer is cleared on selection (spec §3, §5).
Selecting a disabled or unregistered option is a silent no-op (spec §7). -/
def selectOption {V : Type} (cfg : Config V) (id : String) (m : Machine V) : Machine V :=
  match idIndexFrom 0 id (domOrdered m.registry) with
  | none => m
  | some (_, r) =>
      if r.disabled then m
      else
        { m with
          value := some r.value
          isOpen := false
          activeId := none
          searchBuffer := ""
          inputFocused := true
          inputText :=
            match cfg.displayValue with
            | none => cfg.stringForm r.value
            | some f => f r.value }

/-- Modelled from the spec: mouse hover (mousemove) on an option — activates
an enabled option, and "is a no-op if already active or disabled"
(spec §4.4 mouse dispatch).  Focusing an option behaves the same way
(tests `should be possible focus a combobox option, so that it becomes
active` / `should not be possible to focus a combobox option which is
disabled`). -/
def hoverOption {V : Type} (id : String) (m : Machine V) : Machine V :=
  match idIndexFrom 0 id (domOrdered m.registry) with
  | none => m
  | some (_, r) => if r.disabled then m else { m with activeId := some r.id }

/-- Modelled from the spec: mouse-leave — clears activation unless the
"hold" configuration flag is set (spec §4.4 mouse dispatch). -/
def mouseLeave {V : Type} (cfg : Config V) (m : Machine V) : Machine V :=
  if cfg.hold then m else { m with activeId := none }

/-- Modelled from the spec: click on an option — `selectOption(id)` for an
enabled option; "click on disabled option → no-op, list stays open"
(spec §4.4 mouse dispatch).  `selectOption` itself already guards the
disabled case. -/
def clickOption {V : Type} (cfg : Config V) (id : String) (m : Machine V) : Machine V :=
  selectOption cfg id m

/-- Modelled from the spec: the Enter key on the open combobox — "if an
option is active, `selectOption(active)`, else no-op" (spec §4.4 keyboard
dispatch). -/
def enterSelect {V : Type} (cfg : Config V) (m : Machine V) : Machine V :=
  match m.activeId with
  | none => m
  | some id => selectOption cfg id m

/-- Modelled from the spec: `onType(text)` — updates `inputText` and leaves
filtering to the consumer (spec §4.4). -/
def onType {V : Type} (text : String) (m : Machine V) : Machine V :=
  { m with inputText := text }

/-- Is `needle` a prefix of `haystack` (on character lists)? -/
def startsWithChars : List Char → List Char → Bool
  | [], _ => true
  | _ :: _, [] => false
  | a :: as, b :: bs => a == b && startsWithChars as bs

/-- Does `haystack` contain `needle` as a contiguous substring? -/
def containsSub (needle : List Char) : List Char → Bool
  | [] => startsWithChars needle []
  | b :: bs => startsWithChars needle (b :: bs) || containsSub needle bs

/-- Case-insensitive substring match of the search buffer against an
option's textual representation (spec §4.3: "starts-with or contains …
substring match, not prefix-only, case-insensitive"). -/
def textMatches (buffer text : String) : Bool :=
  containsSub buffer.toLower.data text.toLower.data

/-- Modelled from the spec: the typeahead `search(char, registry)` step
(spec §4.3) — appends the character to the buffer, scans enabled options in
DOM order and activates the first whose text contains the buffer; on no
match the buffer is retained and activation is unchanged.  Disabled options
are never match candidates. -/
def searchStep {V : Type} (c : Char) (m : Machine V) : Machine V :=
  match (domOrdered m.registry).find?
      (fun r => !r.disabled && textMatches (m.searchBuffer ++ String.singleton c) r.text) with
  | none => { m with searchBuffer := m.searchBuffer ++ String.singleton c }
  | some r =>
      { m with
        searchBuffer := m.searchBuffer ++ String.singleton c
        activeId := some r.id }

/-- Modelled from the spec: `register(record)` — adds a record to the
registry (spec §4.1); registration order is independent of DOM order. -/
def registerOption {V : Type} (r : OptionRecord V) (m : Machine V) : Machine V :=
  { m with registry := m.registry ++ [r] }

/-- Modelled from the spec: the disposer returned by `register` — removes
the record on unmount (spec §3, §4.1).  If the removed option was the active
one, activation is cleared (the active option must always refer to a
currently-registered record, spec §3). -/
def unregisterOption {V : Type} (id : String) (m : Machine V) : Machine V :=
  { m with
    registry := m.registry.filter (fun r => decide (¬ r.id = id))
    activeId := if m.activeId = some id then none else m.activeId }

/-- The operations of the state machine, as dispatched from the
subcomponents' event handlers (spec §4.4, §2). -/
inductive Op (V : Type) where
  | openT (t : OpenTrigger)
  | close
  | navigate (intent : Intent)
  | typeahead (c : Char)
  | hover (id : String)
  | focusOpt (id : String)
  | clickOpt (id : String)
  | leave
  | typeText (s : String)
  | enterKey
  | register (r : OptionRecord V)
  | unregister (id : String)

/-- The step function: one event-handler invocation (spec §5: all
transitions run synchronously, single-writer). -/
def step {V : Type} [DecidableEq V] (cfg : Config V) (m : Machine V) : Op V → Machine V
  | .openT t => openWith t m
  | .close => closeList m
  | .navigate intent => goTo intent m
  | .typeahead c => searchStep c m
  | .hover id => hoverOption id m
  | .focusOpt id => hoverOption id m
  | .clickOpt id => clickOption cfg id m
  | .leave => mouseLeave cfg m
  | .typeText s => onType s m
  | .enterKey => enterSelect cfg m
  | .register r => registerOption r m
  | .unregister id => unregisterOption id m

/-- Registry well-formedness: "no two records share an id" (spec §3
invariant; duplicate ids are a programmer error per spec §4.1 and §7). -/
def RegWF {V : Type} (reg : List (OptionRecord V)) : Prop :=
  (reg.map OptionRecord.id).Nodup

/-- The active-option invariant of the data model (spec §3): "if present, it
refers to a non-disabled, currently-registered option". -/
def ActiveOk {V : Type} (m : Machine V) : Prop :=
  ∀ id, m.activeId = some id →
    ∃ r, r ∈ m.registry ∧ r.id = id ∧ r.disabled = false

/-- The machine invariant: well-formed registry plus a valid active option. -/
def Inv {V : Type} (m : Machine V) : Prop :=
  RegWF m.registry ∧ ActiveOk m

/-- Side condition on an operation: registering a record with an already
registered id "is a programmer error (should not occur given generated
ids)" (spec §4.1), so a `register` step carries a freshness obligation. -/
def opFresh {V : Type} : Op V → Machine V → Prop
  | .register r, m => r.id ∉ m.registry.map OptionRecord.id
  | _, _ => True

/-- Iterated `Next` at the activation-controller level, starting from a
`none` current index. -/
def nextIter {V : Type} (l : List (OptionRecord V)) : Nat → Option Nat
  | 0 => none
  | k + 1 => nextActive (nextIter l k) .next l

/-- Iterated `goTo(Next)` at the state-machine level. -/
def navNextIter {V : Type} : Nat → Machine V → Machine V
  | 0, m => m
  | k + 1, m => goTo .next (navNextIter k m)

/-- From `src/packages/@headlessui-vue/src/components/popover/popover.ts`,
`usePopoverContext`: injecting the popover context; when no enclosing
`Popover` provided it, an error naming the offending component and the
required parent is thrown at setup time.  The injected context is abstracted
as an arbitrary type `C` (`Option C` standing for `inject(..., null)`). -/
def usePopoverContext (C : Type) (component : String) (ctx : Option C) :
    Except String C :=
  match ctx with
  | none =>
      Except.error ("<" ++ component ++ " /> is missing a parent <Popover /> component.")
  | some c => Except.ok c

/-- Modelled from the spec: the combobox subcomponents' context lookup is not
under `src/` (only the popover's `usePopoverContext` is); per spec §7, a
subcomponent "rendered without an enclosing Combobox root" surfaces a fatal
mount error "identifying the offending component and the required parent",
with the message format fixed by the repository's safeguards tests
(`<$name /> is missing a parent <Combobox /> component.`). -/
def useComboboxContext (C : Type) (component : String) (ctx : Option C) :
    Except String C :=
  match ctx with
  | none =>
      Except.error ("<" ++ component ++ " /> is missing a parent <Combobox /> component.")
  | some c => Except.ok c

/-- Modelled from the spec: the combobox Button implementation is not under
`src/`; its `type` attribute resolution is reconstructed from the
repository's tests (describe `type` attribute): an explicitly provided
`type` is kept; otherwise `type="button"` is added exactly when the rendered
host element resolves to a native button. -/
def resolveButtonType (provided : Option String) (hostIsButton : Bool) :
    Option String :=
  match provided with
  | some t => some t
  | none => if hostIsButton then some "button" else none

/-! ## Concrete fixtures

Option records and machines mirroring the test suite's standard templates
(three options `a`/`b`/`c`, optionally with a disabled middle option, and a
registry whose registration order differs from DOM order). -/

/-- Option "a", enabled, DOM position 0. -/
def optA : OptionRecord String := ⟨"a", "a", false, "alice", 0⟩

/-- Option "b", enabled, DOM position 1. -/
def optB : OptionRecord String := ⟨"b", "b", false, "bob", 1⟩

/-- Option "b", disabled, DOM position 1. -/
def optBdis : OptionRecord String := ⟨"b", "b", true, "bob", 1⟩

/-- Option "c", enabled, DOM position 2. -/
def optC : OptionRecord String := ⟨"c", "c", false, "charlie", 2⟩

/-- Plain configuration: no display formatter, identity string form. -/
def cfgPlain : Config String := ⟨none, fun s => s, false⟩

/-- Configuration with a display formatter appending a bang. -/
def cfgFmt : Config String := ⟨some (fun s => s ++ "!"), fun s => s, false⟩

/-- A closed machine over options a/b/c with no bound value. -/
def mClosed : Machine String := ⟨false, none, none, "", "", [optA, optB, optC], false⟩

/-- A closed machine over options a/b/c with bound value "b". -/
def mClosedSel : Machine String := ⟨false, some "b", none, "", "", [optA, optB, optC], false⟩

/-- An open machine over options a/b(disabled)/c, nothing active. -/
def mDisabledMid : Machine String := ⟨true, none, none, "", "", [optA, optBdis, optC], true⟩

/-- An open machine over options a/b/c, nothing active. -/
def mOpenNone : Machine String := ⟨true, none, none, "", "", [optA, optB, optC], true⟩

/-- An open machine whose registration order (c, a, b) differs from DOM
order (a, b, c). -/
def mShuffleReg : Machine String := ⟨true, none, none, "", "", [optC, optA, optB], true⟩

/-- An open machine over a/b/c with option "b" active. -/
def mActiveB : Machine String := ⟨true, none, some "b", "", "", [optA, optB, optC], true⟩

/-! ## Registry lemmas -/

/-- Membership in `enabledIdxsFrom`: exactly the offsets of the enabled
records. -/
theorem mem_enabledIdxsFrom {V : Type} (l : List (OptionRecord V)) :
    ∀ (i j : Nat), j ∈ enabledIdxsFrom i l ↔
      ∃ k r, l[k]? = some r ∧ r.disabled = false ∧ j = i + k := by
  induction l with
  | nil => intro i j; simp [enabledIdxsFrom]
  | cons a rs ih =>
      intro i j
      by_cases ha : a.disabled
      · rw [enabledIdxsFrom, if_pos ha, ih (i + 1) j]
        constructor
        · rintro ⟨k, r, hk, hr, rfl⟩
          exact ⟨k + 1, r, by simpa using hk, hr, by omega⟩
        · rintro ⟨k, r, hk, hr, rfl⟩
          match k, hk with
          | 0, hk =>
              have : a = r := by simpa using hk
              subst this
              simp [ha] at hr
          | k + 1, hk =>
              exact ⟨k, r, by simpa using hk, hr, by omega⟩
      · rw [enabledIdxsFrom, if_neg ha]
        constructor
        · intro hj
          rcases List.mem_cons.mp hj with rfl | hj
          · exact ⟨0, a, by simp, by simpa using ha, by omega⟩
          · rcases (ih (i + 1) j).mp hj with ⟨k, r, hk, hr, rfl⟩
            exact ⟨k + 1, r, by simpa using hk, hr, by omega⟩
        · rintro ⟨k, r, hk, hr, rfl⟩
          match k, hk with
          | 0, hk =>
              have : a = r := by simpa using hk
              subst this
              simp
          | k + 1, hk =>
              exact List.mem_cons.mpr (Or.inr ((ih (i + 1) _).mpr
                ⟨k, r, by simpa using hk, hr, by omega⟩))

/-- Membership in `enabledIdxs`: exactly the indices of enabled records. -/
theorem mem_enabledIdxs {V : Type} (l : List (OptionRecord V)) (j : Nat) :
    j ∈ enabledIdxs l ↔ ∃ r, l[j]? = some r ∧ r.disabled = false := by
  rw [enabledIdxs, mem_enabledIdxsFrom]
  constructor
  · rintro ⟨k, r, hk, hr, rfl⟩
    exact ⟨r, by simpa using hk, hr⟩
  · rintro ⟨r, hj, hr⟩
    exact ⟨j, r, hj, hr, by omega⟩

/-- All members of `enabledIdxsFrom i l` are at least `i`. -/
theorem le_of_mem_enabledIdxsFrom {V : Type} (l : List (OptionRecord V))
    {i j : Nat} (h : j ∈ enabledIdxsFrom i l) : i ≤ j := by
  rcases (mem_enabledIdxsFrom l i j).mp h with ⟨k, r, -, -, rfl⟩
  omega

/-- `enabledIdxsFrom` is strictly sorted. -/
theorem sorted_enabledIdxsFrom {V : Type} (l : List (OptionRecord V)) :
    ∀ i, List.Sorted (· < ·) (enabledIdxsFrom i l) := by
  induction l with
  | nil => intro i; simp [enabledIdxsFrom]
  | cons a rs ih =>
      intro i
      by_cases ha : a.disabled
      · rw [enabledIdxsFrom, if_pos ha]; exact ih (i + 1)
      · rw [enabledIdxsFrom, if_neg ha]
        refine List.sorted_cons.mpr ⟨fun b hb => ?_, ih (i + 1)⟩
        have := le_of_mem_enabledIdxsFrom rs hb
        omega

/-- `enabledIdxs` is strictly sorted. -/
theorem sorted_enabledIdxs {V : Type} (l : List (OptionRecord V)) :
    List.Sorted (· < ·) (enabledIdxs l) :=
  sorted_enabledIdxsFrom l 0

/-- Unfolding `idIndexFrom`: a hit yields the record at the reported
index, carrying the looked-up id. -/
theorem idIndexFrom_eq_some {V : Type} (id : String) :
    ∀ (l : List (OptionRecord V)) (n i : Nat) (r : OptionRecord V),
      idIndexFrom n id l = some (i, r) →
      n ≤ i ∧ l[i - n]? = some r ∧ r.id = id := by
  intro l
  induction l with
  | nil => intro n i r h; simp [idIndexFrom] at h
  | cons a rs ih =>
      intro n i r h
      rw [idIndexFrom] at h
      by_cases ha : a.id = id
      · rw [if_pos ha] at h
        have hni : (n, a) = (i, r) := by injection h
        obtain ⟨rfl, rfl⟩ : n = i ∧ a = r :=
          ⟨congrArg Prod.fst hni, congrArg Prod.snd hni⟩
        exact ⟨Nat.le_refl _, by simp, ha⟩
      · rw [if_neg ha] at h
        obtain ⟨hle, hget, hid⟩ := ih (n + 1) i r h
        refine ⟨by omega, ?_, hid⟩
        have hi : i - n = (i - (n + 1)) + 1 := by omega
        rw [hi]
        simpa using hget

/-- With unique ids, `idIndexFrom` finds a record exactly at its index. -/
theorem idIndexFrom_of_nodup {V : Type} :
    ∀ (l : List (OptionRecord V)) (n i : Nat) (r : OptionRecord V),
      (l.map OptionRecord.id).Nodup → l[i]? = some r →
      idIndexFrom n r.id l = some (n + i, r) := by
  intro l
  induction l with
  | nil => intro n i r _ h; simp at h
  | cons a rs ih =>
      intro n i r hnd h
      rw [List.map_cons, List.nodup_cons] at hnd
      match i, h with
      | 0, h =>
          have : a = r := by simpa using h
          subst this
          rw [idIndexFrom, if_pos rfl]
          simp
      | i + 1, h =>
          have hmem : r ∈ rs := List.getElem?_mem (by simpa using h)
          have hane : ¬ a.id = r.id := by
            intro he
            exact hnd.1 (he ▸ List.mem_map_of_mem OptionRecord.id hmem)
          rw [idIndexFrom, if_neg hane]
          have := ih (n + 1) i r hnd.2 (by simpa using h)
          rw [this]
          congr 2
          omega

/-! ## Sorted index-list lemmas -/

/-- In a strictly sorted list, the entries strictly above the one at
position `j` are exactly the entries after position `j`. -/
theorem filter_gt_of_sorted :
    ∀ (e : List Nat), List.Sorted (· < ·) e → ∀ (j c : Nat), e[j]? = some c →
      e.filter (fun i => decide (c < i)) = e.drop (j + 1) := by
  intro e
  induction e with
  | nil => intro _ j c h; simp at h
  | cons a t ih =>
      intro hs j c h
      have hs' := List.sorted_cons.mp hs
      match j, h with
      | 0, h =>
          have : a = c := by simpa using h
          subst this
          have ht : t.filter (fun i => decide (a < i)) = t :=
            List.filter_eq_self.mpr (fun x hx => by
              simpa using hs'.1 x hx)
          simp [List.filter_cons, ht]
      | j + 1, h =>
          have hc : t[j]? = some c := by simpa using h
          have hmem : c ∈ t := List.getElem?_mem hc
          have hac : a < c := hs'.1 c hmem
          have hna : ¬ c < a := by omega
          simp only [List.filter_cons, decide_eq_true_eq, if_neg hna,
            List.drop_succ_cons]
          exact ih hs'.2 j c hc

/-- In a strictly sorted list, the entries strictly below the one at
position `j` are exactly the first `j` entries. -/
theorem filter_lt_of_sorted :
    ∀ (e : List Nat), List.Sorted (· < ·) e → ∀ (j c : Nat), e[j]? = some c →
      e.filter (fun i => decide (i < c)) = e.take j := by
  intro e
  induction e with
  | nil => intro _ j c h; simp at h
  | cons a t ih =>
      intro hs j c h
      have hs' := List.sorted_cons.mp hs
      match j, h with
      | 0, h =>
          have : a = c := by simpa using h
          subst this
          have ht : t.filter (fun i => decide (i < a)) = [] :=
            List.filter_eq_nil_iff.mpr (fun x hx => by
              have := hs'.1 x hx
              simp
              omega)
          simp [List.filter_cons, ht]
      | j + 1, h =>
          have hc : t[j]? = some c := by simpa using h
          have hmem : c ∈ t := List.getElem?_mem hc
          have hac : a < c := hs'.1 c hmem
          simp only [List.filter_cons, decide_eq_true_eq, if_pos hac,
            List.take_succ_cons]
          rw [ih hs'.2 j c hc]

/-- The last entry of `take (j + 1)` is the entry at position `j`. -/
theorem getLast?_take_succ :
    ∀ (e : List Nat) (j c : Nat), e[j]? = some c →
      (e.take (j + 1)).getLast? = some c := by
  intro e
  induction e with
  | nil => intro j c h; simp at h
  | cons a t ih =>
      intro j c h
      match j, h with
      | 0, h =>
          have : a = c := by simpa using h
          subst this
          simp
      | j + 1, h =>
          have hc : t[j]? = some c := by simpa using h
          match t, hc with
          | b :: t', hc =>
              rw [List.take_succ_cons]
              have := ih (j := j) (c := c) hc
              rw [List.take_succ_cons] at this ⊢
              calc (a :: b :: List.take j t').getLast?
                  = (b :: List.take j t').getLast? := List.getLast?_cons_cons ..
                _ = some c := this

/-! ## Activation-controller characterisation lemmas -/

/-- `Next` from the `j`-th enabled index: moves to the `(j + 1)`-st enabled
index, or stays when there is none. -/
theorem nextActive_next_at {V : Type} (l : List (OptionRecord V)) (j c : Nat)
    (h : (enabledIdxs l)[j]? = some c) :
    nextActive (some c) .next l = some (((enabledIdxs l)[j + 1]?).getD c) := by
  have hred : nextActive (some c) Intent.next l =
      match ((enabledIdxs l).filter (fun i => decide (c < i))).head? with
      | none => some c
      | some i => some i := rfl
  rw [hred, filter_gt_of_sorted _ (sorted_enabledIdxs l) j c h, List.head?_drop]
  cases h2 : (enabledIdxs l)[j + 1]? with
  | none => simp
  | some d => simp

/-- `Previous` from the first enabled index stays put (no wraparound). -/
theorem nextActive_prev_zero {V : Type} (l : List (OptionRecord V)) (c : Nat)
    (h : (enabledIdxs l)[0]? = some c) :
    nextActive (some c) .previous l = some c := by
  have hred : nextActive (some c) Intent.previous l =
      match ((enabledIdxs l).filter (fun i => decide (i < c))).getLast? with
      | none => some c
      | some i => some i := rfl
  rw [hred, filter_lt_of_sorted _ (sorted_enabledIdxs l) 0 c h]
  simp

/-- `Previous` from the `(j + 1)`-st enabled index moves to the `j`-th. -/
theorem nextActive_prev_at {V : Type} (l : List (OptionRecord V)) (j c d : Nat)
    (h : (enabledIdxs l)[j]? = some d) (h2 : (enabledIdxs l)[j + 1]? = some c) :
    nextActive (some c) .previous l = some d := by
  have hred : nextActive (some c) Intent.previous l =
      match ((enabledIdxs l).filter (fun i => decide (i < c))).getLast? with
      | none => some c
      | some i => some i := rfl
  rw [hred, filter_lt_of_sorted _ (sorted_enabledIdxs l) (j + 1) c h2,
    getLast?_take_succ _ j d h]

/-- With every record enabled, the enabled indices are all indices. -/
theorem enabledIdxsFrom_all {V : Type} :
    ∀ (l : List (OptionRecord V)), (∀ r ∈ l, r.disabled = false) →
      ∀ i, enabledIdxsFrom i l = List.range' i l.length := by
  intro l
  induction l with
  | nil => intro _ i; simp [enabledIdxsFrom]
  | cons a rs ih =>
      intro h i
      have ha : a.disabled = false := h a (by simp)
      rw [enabledIdxsFrom, if_neg (by simp [ha]), List.length_cons,
        List.range'_succ, ih (fun r hr => h r (by simp [hr])) (i + 1)]

/-- Iterated `Next` from `none`: after `k + 1` presses the active index is
the `k`-th enabled index, clamped to the last one (no wraparound). -/
theorem nextIter_min {V : Type} (l : List (OptionRecord V))
    (hne : enabledIdxs l ≠ []) (k : Nat) :
    nextIter l (k + 1) = (enabledIdxs l)[min k ((enabledIdxs l).length - 1)]? := by
  have hlen : 0 < (enabledIdxs l).length := List.length_pos.mpr hne
  induction k with
  | zero =>
      have h0 : nextIter l 1 = (enabledIdxs l).head? := rfl
      rw [h0, List.head?_eq_getElem?]
      have hmin : min 0 ((enabledIdxs l).length - 1) = 0 := by omega
      rw [hmin]
  | succ k ih =>
      have hj : min k ((enabledIdxs l).length - 1) < (enabledIdxs l).length := by
        omega
      obtain ⟨c, hc⟩ : ∃ c, (enabledIdxs l)[min k ((enabledIdxs l).length - 1)]? = some c :=
        ⟨_, List.getElem?_eq_getElem hj⟩
      have hstep : nextIter l (k + 1 + 1) = nextActive (nextIter l (k + 1)) .next l := rfl
      rw [hstep, ih, hc, nextActive_next_at l _ c hc]
      by_cases hlt : min k ((enabledIdxs l).length - 1) + 1 < (enabledIdxs l).length
      · have hmin : min (k + 1) ((enabledIdxs l).length - 1) =
            min k ((enabledIdxs l).length - 1) + 1 := by omega
        rw [hmin, List.getElem?_eq_getElem hlt]
        simp
      · have hnone : (enabledIdxs l)[min k ((enabledIdxs l).length - 1) + 1]? = none :=
          List.getElem?_eq_none (by omega)
        have hmin : min (k + 1) ((enabledIdxs l).length - 1) =
            min k ((enabledIdxs l).length - 1) := by omega
        rw [hnone, hmin, hc]
        simp

/-- `nextActive` only ever lands on enabled, registered indices: if the
current index is `none` or enabled, so is the result (spec §4.2,
"Disabled options are never returned by `nextActive` for any intent"). -/
theorem nextActive_enabled {V : Type} (l : List (OptionRecord V))
    (cur : Option Nat) (intent : Intent) (i : Nat)
    (hcur : ∀ c, cur = some c → ∃ r, l[c]? = some r ∧ r.disabled = false)
    (h : nextActive cur intent l = some i) :
    ∃ r, l[i]? = some r ∧ r.disabled = false := by
  cases intent with
  | first =>
      exact (mem_enabledIdxs l i).mp (List.mem_of_mem_head? h)
  | last =>
      exact (mem_enabledIdxs l i).mp (List.mem_of_mem_getLast? h)
  | next =>
      cases cur with
      | none => exact (mem_enabledIdxs l i).mp (List.mem_of_mem_head? h)
      | some c =>
          have hred : nextActive (some c) Intent.next l =
              match ((enabledIdxs l).filter (fun x => decide (c < x))).head? with
              | none => some c
              | some d => some d := rfl
          rw [hred] at h
          cases hh : ((enabledIdxs l).filter (fun x => decide (c < x))).head? with
          | none =>
              rw [hh] at h
              obtain rfl : c = i := by simpa using h
              exact hcur c rfl
          | some d =>
              rw [hh] at h
              obtain rfl : d = i := by simpa using h
              have hd : d ∈ (enabledIdxs l).filter (fun x => decide (c < x)) :=
                List.mem_of_mem_head? hh
              exact (mem_enabledIdxs l d).mp (List.mem_filter.mp hd).1
  | previous =>
      cases cur with
      | none => exact (mem_enabledIdxs l i).mp (List.mem_of_mem_getLast? h)
      | some c =>
          have hred : nextActive (some c) Intent.previous l =
              match ((enabledIdxs l).filter (fun x => decide (x < c))).getLast? with
              | none => some c
              | some d => some d := rfl
          rw [hred] at h
          cases hh : ((enabledIdxs l).filter (fun x => decide (x < c))).getLast? with
          | none =>
              rw [hh] at h
              obtain rfl : c = i := by simpa using h
              exact hcur c rfl
          | some d =>
              rw [hh] at h
              obtain rfl : d = i := by simpa using h
              have hd : d ∈ (enabledIdxs l).filter (fun x => decide (x < c)) :=
                List.mem_of_mem_getLast? hh
              exact (mem_enabledIdxs l d).mp (List.mem_filter.mp hd).1
  | specific id =>
      have hred : nextActive cur (Intent.specific id) l =
          match idIndexFrom 0 id l with
          | none => cur
          | some (j, r) => if r.disabled then cur else some j := rfl
      rw [hred] at h
      cases hfind : idIndexFrom 0 id l with
      | none =>
          rw [hfind] at h
          exact hcur i h
      | some p =>
          obtain ⟨j, r⟩ := p
          rw [hfind] at h
          by_cases hd : r.disabled
          · have h' : cur = some i := by simpa [hd] using h
            exact hcur i h'
          · obtain rfl : j = i := by simpa [hd] using h
            obtain ⟨-, hget, -⟩ := idIndexFrom_eq_some id l 0 j r hfind
            exact ⟨r, by simpa using hget, by simpa using hd⟩
  | nothing => simp [nextActive] at h

/-! ## State-machine plumbing lemmas -/

/-- `goTo` only changes the active option. -/
theorem goTo_fields {V : Type} (intent : Intent) (m : Machine V) :
    (goTo intent m).registry = m.registry ∧ (goTo intent m).isOpen = m.isOpen ∧
    (goTo intent m).value = m.value ∧ (goTo intent m).inputFocused = m.inputFocused := by
  unfold goTo
  split <;> exact ⟨rfl, rfl, rfl, rfl⟩

/-- `selectOption` leaves the registry unchanged. -/
theorem selectOption_registry {V : Type} (cfg : Config V) (id : String) (m : Machine V) :
    (selectOption cfg id m).registry = m.registry := by
  unfold selectOption
  split
  · rfl
  · split <;> rfl

/-- `openWith` leaves the registry and the bound value unchanged. -/
theorem openWith_fields {V : Type} [DecidableEq V] (t : OpenTrigger) (m : Machine V) :
    (openWith t m).registry = m.registry ∧ (openWith t m).value = m.value := by
  unfold openWith
  split
  · exact ⟨rfl, rfl⟩
  · split
    · split
      · exact ⟨((goTo_fields .last (openedSeed m)).1), ((goTo_fields .last (openedSeed m)).2.2.1)⟩
      · exact ⟨rfl, rfl⟩
    · exact ⟨rfl, rfl⟩

/-- Opening an already-closed machine opens it, whatever the trigger. -/
theorem openWith_isOpen {V : Type} [DecidableEq V] (t : OpenTrigger) (m : Machine V)
    (h : m.isOpen = false) : (openWith t m).isOpen = true := by
  unfold openWith
  rw [if_neg (by simp [h])]
  split
  · split
    · exact ((goTo_fields .last (openedSeed m)).2.1)
    · rfl
  · rfl

/-- The DOM-ordered view has well-formed ids whenever the registry does. -/
theorem regWF_domOrdered {V : Type} (reg : List (OptionRecord V)) (h : RegWF reg) :
    ((domOrdered reg).map OptionRecord.id).Nodup :=
  (((List.perm_insertionSort domLe reg).map OptionRecord.id).nodup_iff).mpr h

/-- Membership transfers between the registry and its DOM-ordered view. -/
theorem mem_domOrdered {V : Type} (reg : List (OptionRecord V)) (r : OptionRecord V) :
    r ∈ domOrdered reg ↔ r ∈ reg :=
  (List.perm_insertionSort domLe reg).mem_iff

/-- Under unique ids, the derived active index is the DOM position of the
active record. -/
theorem activeIndex_eq_of_get {V : Type} (m : Machine V) (hwf : RegWF m.registry)
    (i : Nat) (r : OptionRecord V)
    (hget : (domOrdered m.registry)[i]? = some r) (hid : m.activeId = some r.id) :
    activeIndex m = some i := by
  unfold activeIndex
  rw [hid]
  show Option.map Prod.fst (idIndexFrom 0 r.id (domOrdered m.registry)) = some i
  rw [idIndexFrom_of_nodup (domOrdered m.registry) 0 i r (regWF_domOrdered _ hwf) hget]
  simp

/-- A `none` bound value seeds no activation. -/
theorem seedActive_none {V : Type} [DecidableEq V] (m : Machine V)
    (h : m.value = none) : seedActive m = none := by
  simp only [seedActive, h]

/-- A bound value matching exactly one enabled option seeds that option. -/
theorem seedActive_unique {V : Type} [DecidableEq V] (m : Machine V)
    (v : V) (r : OptionRecord V) (hv : m.value = some v)
    (hm : matchingEnabled v (domOrdered m.registry) = [r]) :
    seedActive m = some r.id := by
  simp only [seedActive, hv, hm]

/-- A bound value with no match, or with several equal matches, seeds no
activation. -/
theorem seedActive_not_unique {V : Type} [DecidableEq V] (m : Machine V)
    (v : V) (hv : m.value = some v)
    (hlen : (matchingEnabled v (domOrdered m.registry)).length ≠ 1) :
    seedActive m = none := by
  simp only [seedActive, hv]
  cases hm : matchingEnabled v (domOrdered m.registry) with
  | nil => rfl
  | cons a t =>
      cases t with
      | nil => rw [hm] at hlen; simp at hlen
      | cons b t2 => rfl

/-- Whatever is seeded on open is an enabled, registered option. -/
theorem seedActive_ok {V : Type} [DecidableEq V] (m : Machine V) (id : String)
    (h : seedActive m = some id) :
    ∃ r, r ∈ m.registry ∧ r.id = id ∧ r.disabled = false := by
  unfold seedActive at h
  cases hv : m.value with
  | none => rw [hv] at h; simp at h
  | some v =>
      rw [hv] at h
      simp only at h
      cases hm : matchingEnabled v (domOrdered m.registry) with
      | nil => rw [hm] at h; simp at h
      | cons a t =>
          cases t with
          | nil =>
              rw [hm] at h
              simp only [Option.some.injEq] at h
              have ha : a ∈ matchingEnabled v (domOrdered m.registry) := by
                rw [hm]; simp
              have := List.mem_filter.mp ha
              refine ⟨a, (mem_domOrdered m.registry a).mp this.1, h, ?_⟩
              have hpred := this.2
              simp only [Bool.and_eq_true, Bool.not_eq_true', decide_eq_true_eq] at hpred
              exact hpred.1
          | cons b t2 => rw [hm] at h; simp at h

/-- Reducing `goTo` when the controller's answer is known. -/
theorem goTo_eq_of_nextActive {V : Type} (intent : Intent) (m : Machine V) (i : Nat)
    (h : nextActive (activeIndex m) intent (domOrdered m.registry) = some i) :
    goTo intent m =
      { m with activeId := ((domOrdered m.registry)[i]?).map OptionRecord.id } := by
  unfold goTo
  rw [h]

/-- Reducing `goTo` when the controller clears activation. -/
theorem goTo_eq_of_nextActive_none {V : Type} (intent : Intent) (m : Machine V)
    (h : nextActive (activeIndex m) intent (domOrdered m.registry) = none) :
    goTo intent m = { m with activeId := none } := by
  unfold goTo
  rw [h]

/-- `navNextIter` never touches the registry. -/
theorem navNextIter_registry {V : Type} (k : Nat) (m : Machine V) :
    (navNextIter k m).registry = m.registry := by
  induction k with
  | zero => rfl
  | succ k ih =>
      calc (navNextIter (k + 1) m).registry
          = (goTo .next (navNextIter k m)).registry := rfl
        _ = (navNextIter k m).registry := (goTo_fields .next _).1
        _ = m.registry := ih

/-- Iterated `goTo(Next)` from a machine with no active option walks the
enabled options in DOM order (clamped at the last one): after `k + 1` steps
the active option is the record at the `min k (count - 1)`-th enabled DOM
index. -/
theorem navNextIter_activeId {V : Type} [DecidableEq V] (m : Machine V)
    (hwf : RegWF m.registry) (hnone : m.activeId = none) (k i : Nat)
    (h : (enabledIdxs (domOrdered m.registry))[min k
          ((enabledIdxs (domOrdered m.registry)).length - 1)]? = some i) :
    ∃ r, (domOrdered m.registry)[i]? = some r ∧ r.disabled = false ∧
      (navNextIter (k + 1) m).activeId = some r.id := by
  induction k generalizing i with
  | zero =>
      have h0 : (enabledIdxs (domOrdered m.registry))[0]? = some i := by
        have : min 0 ((enabledIdxs (domOrdered m.registry)).length - 1) = 0 := by omega
        rwa [this] at h
      obtain ⟨r, hget, hdis⟩ :=
        (mem_enabledIdxs (domOrdered m.registry) i).mp (List.getElem?_mem h0)
      refine ⟨r, hget, hdis, ?_⟩
      have hai : activeIndex m = none := by
        unfold activeIndex; rw [hnone]
      have hnext : nextActive (activeIndex m) .next (domOrdered m.registry) = some i := by
        rw [hai]
        show (enabledIdxs (domOrdered m.registry)).head? = some i
        rw [List.head?_eq_getElem?]
        exact h0
      show (goTo .next m).activeId = some r.id
      rw [goTo_eq_of_nextActive .next m i hnext]
      show ((domOrdered m.registry)[i]?).map OptionRecord.id = some r.id
      rw [hget]
      rfl
  | succ k ih =>
      obtain ⟨hlt0, -⟩ := List.getElem?_eq_some_iff.mp h
      have hlen : 0 < (enabledIdxs (domOrdered m.registry)).length := by omega
      have hj : min k ((enabledIdxs (domOrdered m.registry)).length - 1) <
          (enabledIdxs (domOrdered m.registry)).length := by omega
      obtain ⟨i0, hi0⟩ : ∃ i0,
          (enabledIdxs (domOrdered m.registry))[min k
            ((enabledIdxs (domOrdered m.registry)).length - 1)]? = some i0 :=
        ⟨_, List.getElem?_eq_getElem hj⟩
      obtain ⟨r0, hget0, hdis0, hact0⟩ := ih i0 hi0
      have hreg : (navNextIter (k + 1) m).registry = m.registry :=
        navNextIter_registry (k + 1) m
      have hidx : activeIndex (navNextIter (k + 1) m) = some i0 :=
        activeIndex_eq_of_get (navNextIter (k + 1) m)
          (by rw [hreg]; exact hwf) i0 r0
          (by rw [hreg]; exact hget0) hact0
      have hsucc : ((enabledIdxs (domOrdered m.registry))[min k
            ((enabledIdxs (domOrdered m.registry)).length - 1) + 1]?).getD i0 = i := by
        by_cases hlt : min k ((enabledIdxs (domOrdered m.registry)).length - 1) + 1 <
            (enabledIdxs (domOrdered m.registry)).length
        · have hmin : min (k + 1) ((enabledIdxs (domOrdered m.registry)).length - 1) =
              min k ((enabledIdxs (domOrdered m.registry)).length - 1) + 1 := by omega
          rw [hmin] at h
          rw [List.getElem?_eq_getElem hlt] at h ⊢
          simpa using h
        · have hmin : min (k + 1) ((enabledIdxs (domOrdered m.registry)).length - 1) =
              min k ((enabledIdxs (domOrdered m.registry)).length - 1) := by omega
          rw [hmin] at h
          have hnone2 : (enabledIdxs (domOrdered m.registry))[min k
              ((enabledIdxs (domOrdered m.registry)).length - 1) + 1]? = none :=
            List.getElem?_eq_none (by omega)
          rw [hnone2]
          rw [h] at hi0
          simpa using hi0.symm
      obtain ⟨r, hget, hdis⟩ :=
        (mem_enabledIdxs (domOrdered m.registry) i).mp (List.getElem?_mem h)
      refine ⟨r, hget, hdis, ?_⟩
      have hnext : nextActive (activeIndex (navNextIter (k + 1) m)) .next
          (domOrdered (navNextIter (k + 1) m).registry) = some i := by
        rw [hreg, hidx]
        rw [nextActive_next_at (domOrdered m.registry) _ i0 hi0]
        rw [hsucc]
      show (goTo .next (navNextIter (k + 1) m)).activeId = some r.id
      rw [goTo_eq_of_nextActive .next _ i hnext]
      show ((domOrdered (navNextIter (k + 1) m).registry)[i]?).map OptionRecord.id = some r.id
      rw [hreg, hget]
      rfl

/-! ## Invariant preservation -/

/-- Under the invariant, the derived active index always points at an
enabled record of the DOM-ordered view. -/
theorem activeIndex_enabled {V : Type} (m : Machine V) (hinv : Inv m) :
    ∀ c, activeIndex m = some c →
      ∃ r, (domOrdered m.registry)[c]? = some r ∧ r.disabled = false := by
  intro c hc
  unfold activeIndex at hc
  cases hid : m.activeId with
  | none => rw [hid] at hc; simp at hc
  | some id =>
      rw [hid] at hc
      simp only at hc
      cases hfind : idIndexFrom 0 id (domOrdered m.registry) with
      | none => rw [hfind] at hc; simp at hc
      | some p =>
          obtain ⟨j, r⟩ := p
          rw [hfind] at hc
          have hjc : j = c := by simpa using hc
          obtain ⟨r', hmem, hrid, hdis⟩ := hinv.2 id hid
          obtain ⟨i', hi'⟩ :=
            List.mem_iff_getElem?.mp ((mem_domOrdered m.registry r').mpr hmem)
          have hof := idIndexFrom_of_nodup (domOrdered m.registry) 0 i' r'
            (regWF_domOrdered _ hinv.1) hi'
          rw [hrid] at hof
          rw [hof] at hfind
          have hpair : (0 + i', r') = (j, r) := by injection hfind
          have h1 : 0 + i' = j := congrArg Prod.fst hpair
          have hic : i' = c := by omega
          exact ⟨r', by rw [← hic]; exact hi', hdis⟩

/-- `goTo` preserves the active-option invariant. -/
theorem activeOk_goTo {V : Type} (intent : Intent) (m : Machine V) (hinv : Inv m) :
    ActiveOk (goTo intent m) := by
  intro id hid
  have hreg : (goTo intent m).registry = m.registry := (goTo_fields intent m).1
  rw [hreg]
  cases hna : nextActive (activeIndex m) intent (domOrdered m.registry) with
  | none =>
      rw [goTo_eq_of_nextActive_none intent m hna] at hid
      simp at hid
  | some i =>
      rw [goTo_eq_of_nextActive intent m i hna] at hid
      have hid' : ((domOrdered m.registry)[i]?).map OptionRecord.id = some id := hid
      obtain ⟨r, hget, hdis⟩ := nextActive_enabled (domOrdered m.registry)
        (activeIndex m) intent i (activeIndex_enabled m hinv) hna
      rw [hget] at hid'
      refine ⟨r, (mem_domOrdered m.registry r).mp (List.getElem?_mem hget),
        ?_, hdis⟩
      simpa using hid'

/-- The entry action of opening preserves the active-option invariant:
whatever it seeds is enabled and registered. -/
theorem activeOk_openedSeed {V : Type} [DecidableEq V] (m : Machine V) :
    ActiveOk (openedSeed m) := by
  intro id hid
  have hid' : seedActive m = some id := hid
  exact seedActive_ok m id hid'

/-- Opening preserves the active-option invariant. -/
theorem activeOk_openWith {V : Type} [DecidableEq V] (t : OpenTrigger) (m : Machine V)
    (hinv : Inv m) : ActiveOk (openWith t m) := by
  unfold openWith
  by_cases ho : m.isOpen
  · rw [if_pos (by simp [ho])]
    exact hinv.2
  · rw [if_neg (by simp [ho])]
    have hseed : Inv (openedSeed m) := ⟨hinv.1, activeOk_openedSeed m⟩
    cases t with
    | arrowUp =>
        by_cases hv : m.value = none
        · rw [if_pos hv]
          exact activeOk_goTo .last (openedSeed m) hseed
        · rw [if_neg hv]
          exact activeOk_openedSeed m
    | buttonClick => exact activeOk_openedSeed m
    | enterKey => exact activeOk_openedSeed m
    | spaceKey => exact activeOk_openedSeed m
    | arrowDown => exact activeOk_openedSeed m

/-- `selectOption` either leaves the machine unchanged (unregistered or
disabled option) or clears activation. -/
theorem selectOption_disj {V : Type} (cfg : Config V) (id0 : String) (m : Machine V) :
    selectOption cfg id0 m = m ∨ (selectOption cfg id0 m).activeId = none := by
  unfold selectOption
  split
  · exact Or.inl rfl
  · split
    · exact Or.inl rfl
    · exact Or.inr rfl

/-- `selectOption` preserves the active-option invariant. -/
theorem activeOk_selectOption {V : Type} (cfg : Config V) (id0 : String)
    (m : Machine V) (hok : ActiveOk m) : ActiveOk (selectOption cfg id0 m) := by
  rcases selectOption_disj cfg id0 m with h | h
  · rw [h]; exact hok
  · intro id hid
    rw [h] at hid
    exact absurd hid (by simp)

/-- `hoverOption` either leaves the machine unchanged or activates an
enabled, registered option. -/
theorem hoverOption_disj {V : Type} (id0 : String) (m : Machine V) :
    hoverOption id0 m = m ∨
    ∃ r, r ∈ m.registry ∧ r.disabled = false ∧
      hoverOption id0 m = { m with activeId := some r.id } := by
  cases hfind : idIndexFrom 0 id0 (domOrdered m.registry) with
  | none => exact Or.inl (by simp [hoverOption, hfind])
  | some p =>
      obtain ⟨i, r⟩ := p
      by_cases hd : r.disabled
      · exact Or.inl (by simp [hoverOption, hfind, hd])
      · refine Or.inr ⟨r, ?_, by simpa using hd, by simp [hoverOption, hfind, hd]⟩
        obtain ⟨-, hget, -⟩ := idIndexFrom_eq_some id0 _ 0 i r hfind
        exact (mem_domOrdered m.registry r).mp (List.getElem?_mem (by simpa using hget))

/-- Each step of the state machine preserves the invariant, given the
freshness side condition on registrations. -/
theorem inv_step {V : Type} [DecidableEq V] (cfg : Config V) (m : Machine V)
    (op : Op V) (hinv : Inv m) (hfresh : opFresh op m) : Inv (step cfg m op) := by
  obtain ⟨hwf, hok⟩ := hinv
  cases op with
  | openT t =>
      refine ⟨?_, activeOk_openWith t m ⟨hwf, hok⟩⟩
      show RegWF (openWith t m).registry
      rw [(openWith_fields t m).1]
      exact hwf
  | close =>
      refine ⟨hwf, ?_⟩
      intro id hid
      have hid' : (none : Option String) = some id := hid
      exact absurd hid' (by simp)
  | navigate intent =>
      refine ⟨?_, activeOk_goTo intent m ⟨hwf, hok⟩⟩
      show RegWF (goTo intent m).registry
      rw [(goTo_fields intent m).1]
      exact hwf
  | typeahead c =>
      show Inv (searchStep c m)
      cases hfind : (domOrdered m.registry).find?
          (fun r => !r.disabled && textMatches (m.searchBuffer ++ String.singleton c) r.text) with
      | none =>
          have he : searchStep c m =
              { m with searchBuffer := m.searchBuffer ++ String.singleton c } := by
            simp [searchStep, hfind]
          rw [he]
          exact ⟨hwf, fun id hid => hok id hid⟩
      | some r =>
          have he : searchStep c m =
              { m with
                searchBuffer := m.searchBuffer ++ String.singleton c
                activeId := some r.id } := by
            simp [searchStep, hfind]
          rw [he]
          refine ⟨hwf, ?_⟩
          intro id hid
          have hid' : some r.id = some id := hid
          have hmem : r ∈ m.registry :=
            (mem_domOrdered m.registry r).mp (List.mem_of_find?_eq_some hfind)
          have hpred := List.find?_some hfind
          simp only [Bool.and_eq_true, Bool.not_eq_true'] at hpred
          exact ⟨r, hmem, by simpa using hid', hpred.1⟩
  | hover id0 =>
      show Inv (hoverOption id0 m)
      rcases hoverOption_disj id0 m with h | ⟨r, hmem, hdis, h⟩
      · rw [h]; exact ⟨hwf, hok⟩
      · rw [h]
        refine ⟨hwf, ?_⟩
        intro id hid
        have hid' : some r.id = some id := hid
        exact ⟨r, hmem, by simpa using hid', hdis⟩
  | focusOpt id0 =>
      show Inv (hoverOption id0 m)
      rcases hoverOption_disj id0 m with h | ⟨r, hmem, hdis, h⟩
      · rw [h]; exact ⟨hwf, hok⟩
      · rw [h]
        refine ⟨hwf, ?_⟩
        intro id hid
        have hid' : some r.id = some id := hid
        exact ⟨r, hmem, by simpa using hid', hdis⟩
  | clickOpt id0 =>
      refine ⟨?_, activeOk_selectOption cfg id0 m hok⟩
      show RegWF (selectOption cfg id0 m).registry
      rw [selectOption_registry]
      exact hwf
  | leave =>
      show Inv (mouseLeave cfg m)
      unfold mouseLeave
      by_cases hh : cfg.hold
      · rw [if_pos (by simp [hh])]; exact ⟨hwf, hok⟩
      · rw [if_neg (by simp [hh])]
        refine ⟨hwf, ?_⟩
        intro id hid
        have hid' : (none : Option String) = some id := hid
        exact absurd hid' (by simp)
  | typeText s =>
      exact ⟨hwf, fun id hid => hok id hid⟩
  | enterKey =>
      show Inv (enterSelect cfg m)
      cases ha : m.activeId with
      | none =>
          have he : enterSelect cfg m = m := by simp [enterSelect, ha]
          rw [he]; exact ⟨hwf, hok⟩
      | some id0 =>
          have he : enterSelect cfg m = selectOption cfg id0 m := by
            simp [enterSelect, ha]
          rw [he]
          refine ⟨?_, activeOk_selectOption cfg id0 m hok⟩
          show RegWF (selectOption cfg id0 m).registry
          rw [selectOption_registry]
          exact hwf
  | register r =>
      refine ⟨?_, ?_⟩
      · show RegWF (m.registry ++ [r])
        unfold RegWF
        rw [List.map_append]
        refine List.Nodup.append hwf (by simp) ?_
        intro a ha hb
        simp only [List.map_cons, List.map_nil, List.mem_singleton] at hb
        subst hb
        exact hfresh ha
      · intro id hid
        have hid' : m.activeId = some id := hid
        obtain ⟨r', hmem, hrid, hdis⟩ := hok id hid'
        exact ⟨r', List.mem_append_left _ hmem, hrid, hdis⟩
  | unregister id0 =>
      refine ⟨?_, ?_⟩
      · show RegWF (m.registry.filter (fun r => decide (¬ r.id = id0)))
        exact List.Nodup.sublist
          ((List.filter_sublist m.registry).map OptionRecord.id) hwf
      · intro id hid
        have hid' : (if m.activeId = some id0 then none else m.activeId) = some id := hid
        by_cases hcase : m.activeId = some id0
        · rw [if_pos hcase] at hid'
          exact absurd hid' (by simp)
        · rw [if_neg hcase] at hid'
          obtain ⟨r', hmem, hrid, hdis⟩ := hok id hid'
          refine ⟨r', ?_, hrid, hdis⟩
          refine List.mem_filter.mpr ⟨hmem, ?_⟩
          simp only [decide_eq_true_eq]
          intro he
          apply hcase
          rw [hid', ← hrid, he]

/-! ## Opening reductions -/

/-- On a closed machine, every trigger except ArrowUp opens via the plain
entry action. -/
theorem openWith_eq_of_closed_nonUp {V : Type} [DecidableEq V] (t : OpenTrigger)
    (m : Machine V) (hclosed : m.isOpen = false) (ht : t ≠ OpenTrigger.arrowUp) :
    openWith t m = openedSeed m := by
  unfold openWith
  rw [if_neg (by simp [hclosed])]
  cases t with
  | arrowUp => exact absurd rfl ht
  | buttonClick => rfl
  | enterKey => rfl
  | spaceKey => rfl
  | arrowDown => rfl

/-- On a closed machine with a bound value, every trigger (ArrowUp included)
opens via the plain entry action. -/
theorem openWith_eq_of_closed_some {V : Type} [DecidableEq V] (t : OpenTrigger)
    (m : Machine V) (v : V) (hclosed : m.isOpen = false) (hv : m.value = some v) :
    openWith t m = openedSeed m := by
  unfold openWith
  rw [if_neg (by simp [hclosed])]
  cases t with
  | arrowUp =>
      show (if m.value = none then goTo .last (openedSeed m) else openedSeed m) =
        openedSeed m
      rw [if_neg (by simp [hv])]
  | buttonClick => rfl
  | enterKey => rfl
  | spaceKey => rfl
  | arrowDown => rfl

/-- On a closed machine with no bound value, ArrowUp opens and then jumps to
the last enabled option. -/
theorem openWith_eq_of_closed_none_up {V : Type} [DecidableEq V]
    (m : Machine V) (hclosed : m.isOpen = false) (hv : m.value = none) :
    openWith OpenTrigger.arrowUp m = goTo .last (openedSeed m) := by
  unfold openWith
  rw [if_neg (by simp [hclosed])]
  show (if m.value = none then goTo .last (openedSeed m) else openedSeed m) =
    goTo .last (openedSeed m)
  rw [if_pos hv]

/-- The derived active index from a known `idIndexFrom` hit. -/
theorem activeIndex_eq_of_idIndex {V : Type} (m : Machine V) (id : String)
    (i : Nat) (r : OptionRecord V) (ha : m.activeId = some id)
    (hfind : idIndexFrom 0 id (domOrdered m.registry) = some (i, r)) :
    activeIndex m = some i := by
  unfold activeIndex
  rw [ha]
  show (idIndexFrom 0 id (domOrdered m.registry)).map Prod.fst = some i
  rw [hfind]
  rfl

/-! ## Claim theorems -/

/-- Claim C2: the `Next` intent activates the first enabled index when the
current index is null; from the `j`-th enabled index it moves to the next
enabled index (skipping disabled options) and stays unchanged at the last
enabled index (no wraparound); and any `N` or more `Next` intents starting
from null over `N` enabled options end at active index `N - 1`. -/
theorem claim2_next_intent {V : Type} (l : List (OptionRecord V)) :
    (nextActive none .next l = (enabledIdxs l).head?) ∧
    (∀ j c, (enabledIdxs l)[j]? = some c →
      nextActive (some c) .next l = some (((enabledIdxs l)[j + 1]?).getD c)) ∧
    (∀ k, (∀ r ∈ l, r.disabled = false) → 0 < l.length → l.length ≤ k →
      nextIter l k = some (l.length - 1)) := by
  refine ⟨rfl, fun j c h => nextActive_next_at l j c h, ?_⟩
  intro k hall hpos hk
  have hall' : enabledIdxs l = List.range' 0 l.length :=
    enabledIdxsFrom_all l hall 0
  have hlen : (enabledIdxs l).length = l.length := by
    rw [hall']; simp
  have hne : enabledIdxs l ≠ [] := by
    intro hcon
    rw [hcon] at hlen
    simp at hlen
    omega
  obtain ⟨k', rfl⟩ : ∃ k', k = k' + 1 := ⟨k - 1, by omega⟩
  rw [nextIter_min l hne k']
  have hmin : min k' ((enabledIdxs l).length - 1) = l.length - 1 := by omega
  rw [hmin, hall', List.getElem?_range' 0 1 (by omega)]
  simp

/-- Witness for C2: with options a / b(disabled) / c, one `Next` from index 0
skips the disabled option and lands on index 2; with three enabled options,
three or five `Next` presses from null both end at index 2. -/
theorem claim2_witness :
    nextActive (some 0) Intent.next mDisabledMid.registry = some 2 ∧
    nextIter mClosed.registry 3 = some 2 ∧
    nextIter mClosed.registry 5 = some 2 := by
  refine ⟨?_, ?_, ?_⟩
  · rw [(claim2_next_intent mDisabledMid.registry).2.1 0 0 (by decide)]
    decide
  · rw [(claim2_next_intent mClosed.registry).2.2 3 (by decide) (by decide) (by decide)]
    decide
  · rw [(claim2_next_intent mClosed.registry).2.2 5 (by decide) (by decide) (by decide)]
    decide

/-- Claim C3: the `Previous` intent activates the last enabled index when the
current index is null (skipping trailing disabled options); from the first
enabled index it stays unchanged (no wraparound); from the `(j + 1)`-st
enabled index it moves back to the `j`-th enabled index. -/
theorem claim3_previous_intent {V : Type} (l : List (OptionRecord V)) :
    (nextActive none .previous l = (enabledIdxs l).getLast?) ∧
    (∀ c, (enabledIdxs l)[0]? = some c → nextActive (some c) .previous l = some c) ∧
    (∀ j c d, (enabledIdxs l)[j]? = some d → (enabledIdxs l)[j + 1]? = some c →
      nextActive (some c) .previous l = some d) :=
  ⟨rfl, fun c h => nextActive_prev_zero l c h,
    fun j c d h h2 => nextActive_prev_at l j c d h h2⟩

/-- Witness for C3: with options a / b(disabled) / c, `Previous` from null
lands on index 2 (the last enabled, not the disabled index 1), `Previous`
from index 2 moves to index 0, and `Previous` from index 0 stays at 0. -/
theorem claim3_witness :
    nextActive none Intent.previous mDisabledMid.registry = some 2 ∧
    nextActive (some 2) Intent.previous mDisabledMid.registry = some 0 ∧
    nextActive (some 0) Intent.previous mDisabledMid.registry = some 0 := by
  refine ⟨?_, ?_, ?_⟩
  · rw [(claim3_previous_intent mDisabledMid.registry).1]
    decide
  · exact (claim3_previous_intent mDisabledMid.registry).2.2 0 2 0 (by decide) (by decide)
  · exact (claim3_previous_intent mDisabledMid.registry).2.1 0 (by decide)

/-- Counterexample to C1 as stated: on a closed combobox over three enabled
options with a null bound value, the ArrowUp open trigger does leave an
option active after opening — the last one ("c") — even though the claim
demands that no option be active for every open trigger when the value is
null. -/
theorem claim1_counterexample :
    mClosed.isOpen = false ∧ mClosed.value = none ∧
    (openWith OpenTrigger.arrowUp mClosed).isOpen = true ∧
    (openWith OpenTrigger.arrowUp mClosed).activeId = some "c" := by
  refine ⟨rfl, rfl, ?_, ?_⟩ <;> decide

/-- Claim C1 (amended): on a closed combobox, every open trigger opens the
machine; for every trigger, if the bound value matches exactly one enabled
registered option, the option active after opening is that option (at its
DOM-order index), and a bound value with no match (or several equal matches)
leaves no option active.  A null value leaves no option active for the
button-click, Enter, Space and ArrowDown triggers; the ArrowUp trigger
instead activates the last enabled index (Previous-from-null), and no
trigger ever auto-activates the first option. -/
theorem claim1_open_activation {V : Type} [DecidableEq V] (m : Machine V)
    (t : OpenTrigger) (hwf : RegWF m.registry) (hclosed : m.isOpen = false) :
    ((openWith t m).isOpen = true) ∧
    (∀ v r, m.value = some v → matchingEnabled v (domOrdered m.registry) = [r] →
      ∃ i, (domOrdered m.registry)[i]? = some r ∧
        (openWith t m).activeId = some r.id ∧
        activeIndex (openWith t m) = some i) ∧
    (∀ v, m.value = some v → (matchingEnabled v (domOrdered m.registry)).length ≠ 1 →
      (openWith t m).activeId = none) ∧
    (m.value = none → t ≠ OpenTrigger.arrowUp → (openWith t m).activeId = none) ∧
    (m.value = none → t = OpenTrigger.arrowUp →
      activeIndex (openWith t m) = (enabledIdxs (domOrdered m.registry)).getLast?) := by
  refine ⟨openWith_isOpen t m hclosed, ?_, ?_, ?_, ?_⟩
  · intro v r hv hm
    have hopen : openWith t m = openedSeed m :=
      openWith_eq_of_closed_some t m v hclosed hv
    have hseed : seedActive m = some r.id := seedActive_unique m v r hv hm
    have hmemf : r ∈ matchingEnabled v (domOrdered m.registry) := by
      rw [hm]; exact List.mem_singleton_self r
    have hmem : r ∈ domOrdered m.registry := (List.mem_filter.mp hmemf).1
    obtain ⟨i, hi⟩ := List.mem_iff_getElem?.mp hmem
    refine ⟨i, hi, ?_, ?_⟩
    · rw [hopen]
      exact hseed
    · rw [hopen]
      refine activeIndex_eq_of_get (openedSeed m) hwf i r hi ?_
      exact hseed
  · intro v hv hlen
    have hopen : openWith t m = openedSeed m :=
      openWith_eq_of_closed_some t m v hclosed hv
    rw [hopen]
    exact seedActive_not_unique m v hv hlen
  · intro hv ht
    have hopen : openWith t m = openedSeed m :=
      openWith_eq_of_closed_nonUp t m hclosed ht
    rw [hopen]
    exact seedActive_none m hv
  · intro hv ht
    subst ht
    rw [openWith_eq_of_closed_none_up m hclosed hv]
    have hai : activeIndex (openedSeed m) = none := by
      unfold activeIndex
      have : (openedSeed m).activeId = none := seedActive_none m hv
      rw [this]
    cases hg : (enabledIdxs (domOrdered m.registry)).getLast? with
    | none =>
        have hna : nextActive (activeIndex (openedSeed m)) .last
            (domOrdered (openedSeed m).registry) = none := hg
        rw [goTo_eq_of_nextActive_none .last (openedSeed m) hna]
        unfold activeIndex
        rfl
    | some i =>
        have hna : nextActive (activeIndex (openedSeed m)) .last
            (domOrdered (openedSeed m).registry) = some i := hg
        rw [goTo_eq_of_nextActive .last (openedSeed m) i hna]
        obtain ⟨r, hget, hdis⟩ :=
          (mem_enabledIdxs (domOrdered m.registry) i).mp (List.mem_of_mem_getLast? hg)
        refine activeIndex_eq_of_get _ ?_ i r ?_ ?_
        · exact hwf
        · exact hget
        · show ((domOrdered m.registry)[i]?).map OptionRecord.id = some r.id
          rw [hget]
          rfl

/-- Witness for C1: with value "b" bound, a button click opens with option
"b" active; with no value bound, ArrowDown opens with no option active. -/
theorem claim1_witness :
    (openWith OpenTrigger.buttonClick mClosedSel).activeId = some "b" ∧
    (openWith OpenTrigger.arrowDown mClosed).activeId = none := by
  constructor
  · obtain ⟨-, h2, -, -, -⟩ :=
      claim1_open_activation mClosedSel OpenTrigger.buttonClick (by unfold RegWF; decide) rfl
    obtain ⟨i, -, ha, -⟩ := h2 "b" optB rfl (by decide)
    exact ha
  · obtain ⟨-, -, -, h4, -⟩ :=
      claim1_open_activation mClosed OpenTrigger.arrowDown (by unfold RegWF; decide) rfl
    exact h4 rfl (by decide)

/-- Claim C4: every operation of the state machine preserves the invariant
that an active option, when present, is a non-disabled, currently-registered
option (given the spec's unique-id discipline on registration); `nextActive`
never returns a disabled index for any intent; and hovering, focusing, or
clicking a disabled option is a no-op (never activates or selects it). -/
theorem claim4_disabled_invariant {V : Type} [DecidableEq V] :
    (∀ (cfg : Config V) (m : Machine V) (op : Op V),
      Inv m → opFresh op m → Inv (step cfg m op)) ∧
    (∀ (l : List (OptionRecord V)) (cur : Option Nat) (intent : Intent) (i : Nat),
      (∀ c, cur = some c → ∃ r, l[c]? = some r ∧ r.disabled = false) →
      nextActive cur intent l = some i →
      ∃ r, l[i]? = some r ∧ r.disabled = false) ∧
    (∀ (cfg : Config V) (m : Machine V) (id : String) (i : Nat) (r : OptionRecord V),
      idIndexFrom 0 id (domOrdered m.registry) = some (i, r) → r.disabled = true →
      step cfg m (.hover id) = m ∧ step cfg m (.focusOpt id) = m ∧
      step cfg m (.clickOpt id) = m) := by
  refine ⟨inv_step, nextActive_enabled, ?_⟩
  intro cfg m id i r hfind hd
  have h1 : hoverOption id m = m := by simp [hoverOption, hfind, hd]
  have h2 : selectOption cfg id m = m := by simp [selectOption, hfind, hd]
  exact ⟨h1, h1, h2⟩

/-- Witness for C4: a `Next` navigation step on a concrete open machine
preserves the invariant, and hovering the disabled option "b" is a no-op. -/
theorem claim4_witness :
    Inv (step cfgPlain mOpenNone (Op.navigate Intent.next)) ∧
    step cfgPlain mDisabledMid (Op.hover "b") = mDisabledMid := by
  constructor
  · refine (claim4_disabled_invariant (V := String)).1 cfgPlain mOpenNone
      (Op.navigate Intent.next) ⟨by unfold RegWF; decide, ?_⟩ trivial
    intro id hid
    simp [mOpenNone] at hid
  · exact ((claim4_disabled_invariant (V := String)).2.2 cfgPlain mDisabledMid
      "b" 1 optBdis (by decide) (by decide)).1

/-- Claim C5: selecting an enabled option (by Enter on the active option or
by clicking it) and then re-opening the combobox by any trigger reactivates
that same option at its DOM-order index — the selection persists and seeds
activation — provided it is the unique enabled option carrying its value
(duplicate values are undefined behaviour per spec §7). -/
theorem claim5_select_reopen {V : Type} [DecidableEq V] (cfg : Config V)
    (m : Machine V) (id : String) (i : Nat) (r : OptionRecord V) (t : OpenTrigger)
    (hfind : idIndexFrom 0 id (domOrdered m.registry) = some (i, r))
    (hen : r.disabled = false)
    (huniq : matchingEnabled r.value (domOrdered m.registry) = [r]) :
    (openWith t (selectOption cfg id m)).activeId = some r.id ∧
    activeIndex (openWith t (selectOption cfg id m)) = some i ∧
    (m.activeId = some id → enterSelect cfg m = selectOption cfg id m) ∧
    clickOption cfg id m = selectOption cfg id m := by
  have hreg : (selectOption cfg id m).registry = m.registry :=
    selectOption_registry cfg id m
  have hopen : (selectOption cfg id m).isOpen = false := by
    simp [selectOption, hfind, hen]
  have hval : (selectOption cfg id m).value = some r.value := by
    simp [selectOption, hfind, hen]
  have hrid : r.id = id := (idIndexFrom_eq_some id _ 0 i r hfind).2.2
  have hseed : seedActive (selectOption cfg id m) = some r.id := by
    refine seedActive_unique _ r.value r hval ?_
    rw [hreg]
    exact huniq
  have hopenEq : openWith t (selectOption cfg id m) = openedSeed (selectOption cfg id m) :=
    openWith_eq_of_closed_some t _ r.value hopen hval
  have hact : (openWith t (selectOption cfg id m)).activeId = some r.id := by
    rw [hopenEq]
    exact hseed
  refine ⟨hact, ?_, ?_, rfl⟩
  · refine activeIndex_eq_of_idIndex _ id i r ?_ ?_
    · rw [hact, hrid]
    · rw [(openWith_fields t _).1, hreg]
      exact hfind
  · intro ha
    simp [enterSelect, ha]

/-- Witness for C5: selecting option "b" on the open three-option machine
and re-opening by button click makes "b" active again at index 1. -/
theorem claim5_witness :
    (openWith OpenTrigger.buttonClick (selectOption cfgPlain "b" mOpenNone)).activeId =
      some "b" ∧
    activeIndex (openWith OpenTrigger.buttonClick (selectOption cfgPlain "b" mOpenNone)) =
      some 1 := by
  obtain ⟨h1, h2, -, -⟩ := claim5_select_reopen cfgPlain mOpenNone "b" 1 optB
    OpenTrigger.buttonClick (by decide) (by decide) (by decide)
  exact ⟨h1, h2⟩

/-- Claim C6: selecting an enabled registered option sets the bound value to
the option's value, closes the list, moves focus back to the input, and sets
the input text to the string form of the value when no display formatter is
configured, or to `formatter(value)` when one is. -/
theorem claim6_select_postcondition {V : Type} [DecidableEq V] (cfg : Config V)
    (m : Machine V) (id : String) (i : Nat) (r : OptionRecord V)
    (hfind : idIndexFrom 0 id (domOrdered m.registry) = some (i, r))
    (hen : r.disabled = false) :
    (selectOption cfg id m).value = some r.value ∧
    (selectOption cfg id m).isOpen = false ∧
    (selectOption cfg id m).inputFocused = true ∧
    (cfg.displayValue = none →
      (selectOption cfg id m).inputText = cfg.stringForm r.value) ∧
    (∀ f, cfg.displayValue = some f →
      (selectOption cfg id m).inputText = f r.value) := by
  refine ⟨by simp [selectOption, hfind, hen], by simp [selectOption, hfind, hen],
    by simp [selectOption, hfind, hen], ?_, ?_⟩
  · intro hnone
    simp [selectOption, hfind, hen, hnone]
  · intro f hf
    simp [selectOption, hfind, hen, hf]

/-- Witness for C6: selecting "b" with no formatter puts "b" in the input
and closes the list; with the bang formatter it puts "b!" in the input. -/
theorem claim6_witness :
    (selectOption cfgPlain "b" mOpenNone).value = some "b" ∧
    (selectOption cfgPlain "b" mOpenNone).isOpen = false ∧
    (selectOption cfgPlain "b" mOpenNone).inputText = "b" ∧
    (selectOption cfgFmt "b" mOpenNone).inputText = "b!" := by
  obtain ⟨hv, ho, -, htext, -⟩ := claim6_select_postcondition cfgPlain mOpenNone
    "b" 1 optB (by decide) (by decide)
  obtain ⟨-, -, -, -, htext2⟩ := claim6_select_postcondition cfgFmt mOpenNone
    "b" 1 optB (by decide) (by decide)
  refine ⟨hv, ho, ?_, ?_⟩
  · rw [htext rfl]
    decide
  · rw [htext2 (fun s => s ++ "!") rfl]
    decide

/-- Claim C7: whatever sequence of registrations and unregistrations
produced the registry (so whatever its registration order), navigation
resolves indices against the current DOM order at query time: the queried
view is a permutation of the registry sorted by DOM position, and repeated
`Next` intents starting from no active option visit the enabled options in
DOM order — after `k + 1` presses the `k`-th enabled record in DOM order is
active. -/
theorem claim7_dom_order {V : Type} [DecidableEq V] (m : Machine V)
    (hwf : RegWF m.registry) (hnone : m.activeId = none) :
    List.Perm (domOrdered m.registry) m.registry ∧
    List.Sorted domLe (domOrdered m.registry) ∧
    (∀ k i, (enabledIdxs (domOrdered m.registry))[k]? = some i →
      ∃ r, (domOrdered m.registry)[i]? = some r ∧ r.disabled = false ∧
        (navNextIter (k + 1) m).activeId = some r.id) := by
  refine ⟨List.perm_insertionSort domLe m.registry,
    List.sorted_insertionSort domLe m.registry, ?_⟩
  intro k i h
  obtain ⟨hlt, -⟩ := List.getElem?_eq_some_iff.mp h
  have hmin : min k ((enabledIdxs (domOrdered m.registry)).length - 1) = k := by
    omega
  refine navNextIter_activeId m hwf hnone k i ?_
  rw [hmin]
  exact h

/-- Witness for C7: on a machine registered in order c, a, b (DOM positions
2, 0, 1), repeated `Next` from null visits a, b, c — the DOM order, not the
registration order. -/
theorem claim7_witness :
    (navNextIter 1 mShuffleReg).activeId = some "a" ∧
    (navNextIter 2 mShuffleReg).activeId = some "b" ∧
    (navNextIter 3 mShuffleReg).activeId = some "c" := by
  obtain ⟨-, -, h⟩ := claim7_dom_order mShuffleReg (by unfold RegWF; decide) rfl
  obtain ⟨r0, h0get, -, h0⟩ := h 0 0 (by decide)
  obtain ⟨r1, h1get, -, h1⟩ := h 1 1 (by decide)
  obtain ⟨r2, h2get, -, h2⟩ := h 2 2 (by decide)
  have hd : domOrdered mShuffleReg.registry = [optA, optB, optC] := by decide
  rw [hd] at h0get h1get h2get
  have e0 : r0 = optA := by simpa using h0get.symm
  have e1 : r1 = optB := by simpa using h1get.symm
  have e2 : r2 = optC := by simpa using h2get.symm
  rw [e0] at h0
  rw [e1] at h1
  rw [e2] at h2
  exact ⟨h0, h1, h2⟩

/-- Claim C8: a combobox subcomponent (Button, Label, Options, Option)
rendered without an enclosing Combobox root fails at mount with an error
naming the offending component and the required parent, in the exact format
`<Name /> is missing a parent <Combobox /> component.`; a provided context
succeeds.  The popover source exhibits the same contract with `<Popover />`
as the required parent. -/
theorem claim8_missing_parent :
    (∀ (C : Type) (name : String), useComboboxContext C name none =
      Except.error ("<" ++ name ++ " /> is missing a parent <Combobox /> component.")) ∧
    (∀ (C : Type) (name : String) (c : C),
      useComboboxContext C name (some c) = Except.ok c) ∧
    (∀ (C : Type) (name : String), usePopoverContext C name none =
      Except.error ("<" ++ name ++ " /> is missing a parent <Popover /> component.")) :=
  ⟨fun _ _ => rfl, fun _ _ _ => rfl, fun _ _ => rfl⟩

/-- Claim C9: the active option is tracked by identity, not by stored index:
unregistering any other option, or registering a new one, leaves the same
option active (its DOM-order index may shift), and the active record stays
registered through the unregistration of another option. -/
theorem claim9_identity_tracking {V : Type} [DecidableEq V] (cfg : Config V)
    (m : Machine V) (id id' : String) (r' : OptionRecord V)
    (hact : m.activeId = some id) (hne : id' ≠ id) :
    (step cfg m (.unregister id')).activeId = some id ∧
    (step cfg m (.register r')).activeId = some id ∧
    (∀ r, r ∈ m.registry → r.id = id → r ∈ (step cfg m (.unregister id')).registry) := by
  refine ⟨?_, hact, ?_⟩
  · show (if m.activeId = some id' then none else m.activeId) = some id
    have hcond : ¬ m.activeId = some id' := by
      rw [hact]
      simp only [Option.some.injEq]
      exact fun h => hne h.symm
    rw [if_neg hcond, hact]
  · intro r hmem hrid
    show r ∈ m.registry.filter (fun r2 => decide (¬ r2.id = id'))
    refine List.mem_filter.mpr ⟨hmem, ?_⟩
    simp only [decide_eq_true_eq]
    rw [hrid]
    exact fun h => hne h.symm

/-- Witness for C9: with "b" active at DOM index 1, filtering out "a" keeps
"b" active (now at index 0), and re-registering "a" keeps "b" active (back
at index 1). -/
theorem claim9_witness :
    (step cfgPlain mActiveB (Op.unregister "a")).activeId = some "b" ∧
    activeIndex (step cfgPlain mActiveB (Op.unregister "a")) = some 0 ∧
    (step cfgPlain (step cfgPlain mActiveB (Op.unregister "a"))
      (Op.register optA)).activeId = some "b" ∧
    activeIndex (step cfgPlain (step cfgPlain mActiveB (Op.unregister "a"))
      (Op.register optA)) = some 1 := by
  obtain ⟨h1, -, -⟩ :=
    claim9_identity_tracking cfgPlain mActiveB "b" "a" optA rfl (by decide)
  obtain ⟨-, h2, -⟩ :=
    claim9_identity_tracking cfgPlain (step cfgPlain mActiveB (Op.unregister "a"))
      "b" "a" optA h1 (by decide)
  exact ⟨h1, by decide, h2, by decide⟩

/-- Claim C10: the combobox button's `type` attribute resolution — with no
explicit `type` and a native-button host, `type="button"` is added; an
explicitly provided `type` is always kept; and no `type` attribute is added
when the host does not resolve to a button. -/
theorem claim10_button_type :
    resolveButtonType none true = some "button" ∧
    (∀ t b, resolveButtonType (some t) b = some t) ∧
    resolveButtonType none false = none :=
  ⟨rfl, fun _ _ => rfl, rfl⟩

end Headless
